import Mathlib

/-!
Verification of the upterm history-trie autocompletion core.

Strings are modelled as lists of characters (`Str`); the `str` coercion
turns a Lean string literal into this representation.

The fuzzy matcher `fuzzyMatch` is translated from
`src/utils/Common.ts` (function `fuzzyMatch`).  The `HistoryTrie`
itself (`src/utils/HistoryTrie.ts`) is not part of the sources at
hand, only its unit tests are; its tokenizer, insertion and
continuation-resolution algorithm are therefore modelled from the
specification (sections 4.1 to 4.3) and validated against the
behaviour recorded in `test/utils/history_trie_spec.ts`.
-/

abbrev Str := List Char

def str (s : String) : Str := s.data

/-- ASCII lowercasing of one character, mirroring what the TypeScript
`toLowerCase()` does on the ASCII range (the only range exercised by the
repository).  This is exactly the core function `Char.toLower`. -/
def charToLower (c : Char) : Char := Char.toLower c

def strToLower (s : Str) : Str := s.map charToLower

/-- Models JavaScript `s.startsWith(p)`. -/
def strStartsWith (s p : Str) : Bool := p.isPrefixOf s

/-- The separator set of the regular expression in fuzzyMatch. -/
def isSep (c : Char) : Bool := c = '-' || c = '_' || c = ':' || c = '/'

/-- Models the split of a string on the separator alternation regular
expression (dash, underscore, colon, slash): split on every separator
occurrence, keeping empty pieces. -/
def splitOnSeps : Str → List Str
  | [] => [[]]
  | c :: rest =>
      if isSep c then [] :: splitOnSeps rest
      else
        match splitOnSeps rest with
        | t :: ts => (c :: t) :: ts
        | [] => [[c]]

/-- Translated from fuzzyMatch in src/utils/Common.ts.  The
`token ≠ []` guard reflects that the JavaScript code tests the
truthiness of `Array.prototype.find`, and an empty string is falsy. -/
def fuzzyMatch (input candidate : Str) : Bool :=
  let lowerCasedInput := strToLower input
  if strStartsWith (strToLower candidate) lowerCasedInput then true
  else
    match (splitOnSeps candidate).find?
        (fun token => strStartsWith (strToLower token) lowerCasedInput) with
    | some token => token ≠ []
    | none => false

/-! ## Tokenizer (spec section 4.1) -/

def singleQuote : Char := Char.ofNat 39

def doubleQuote : Char := Char.ofNat 34

/-- Modelled from the spec: the quote-aware tokenizer state machine of
`HistoryTrie.ts` (missing from the sources), spec section 4.1: split on
runs of whitespace; a quote character opens a literal closed by the next
occurrence of the same quote character, quote characters included in the
token; an unterminated literal extends to the end of the line.
Arguments: remaining characters, open-quote state, current token
(reversed), accumulated tokens (reversed). -/
def tokenizeGo : List Char → Option Char → List Char → List Str → List Str
  | [], _, cur, acc => (if cur = [] then acc else cur.reverse :: acc).reverse
  | c :: rest, some q, cur, acc =>
      if c = q then tokenizeGo rest none (c :: cur) acc
      else tokenizeGo rest (some q) (c :: cur) acc
  | c :: rest, none, cur, acc =>
      if c.isWhitespace then
        (if cur = [] then tokenizeGo rest none [] acc
         else tokenizeGo rest none [] (cur.reverse :: acc))
      else if c = singleQuote || c = doubleQuote then
        tokenizeGo rest (some c) (c :: cur) acc
      else tokenizeGo rest none (c :: cur) acc

/-- Modelled from the spec: tokenization of a command line. -/
def tokenize (line : Str) : List Str := tokenizeGo line none [] []

/-! ## Trie data model (spec section 3) -/

mutual
inductive TrieNode : Type where
  | node (frequency : Nat) (children : Children) : TrieNode
  deriving DecidableEq
inductive Children : Type where
  | nil : Children
  | cons (key : Str) (child : TrieNode) (rest : Children) : Children
  deriving DecidableEq
end

def TrieNode.frequency : TrieNode → Nat
  | .node f _ => f

def TrieNode.children : TrieNode → Children
  | .node _ cs => cs

def emptyTrie : TrieNode := .node 0 .nil

/-- Exact-value edge lookup among the children of a node. -/
def findChild (t : Str) : Children → Option TrieNode
  | .nil => none
  | .cons k c rest => if k = t then some c else findChild t rest

/-- Update the child keyed `t` in place (preserving discovery order), or
append a fresh child with frequency 0 at the end for `f` to update. -/
def upsertWith (t : Str) (f : TrieNode → TrieNode) : Children → Children
  | .nil => .cons t (f (.node 0 .nil)) .nil
  | .cons k c rest =>
      if k = t then .cons k (f c) rest else .cons k c (upsertWith t f rest)

/-- Modelled from the spec: the mutating walk of `add` (spec section
4.2) at the children level.  For each token in order, look up or create
the child edge keyed by that token, increment its frequency, descend. -/
def insertC : List Str → Children → Children
  | [], cs => cs
  | t :: ts, cs =>
      upsertWith t (fun c => .node (c.frequency + 1) (insertC ts c.children)) cs

/-- Modelled from the spec: `add(line)` (spec section 4.2). -/
def addLine (t : TrieNode) (line : Str) : TrieNode :=
  .node t.frequency (insertC (tokenize line) t.children)

/-- Replay a history of command lines into a trie, oldest first. -/
def replay (lines : List Str) (t : TrieNode) : TrieNode := lines.foldl addLine t

/-! ## Continuation resolution (spec section 4.3) -/

structure Suggestion where
  value : Str
  space : Bool
deriving DecidableEq, Repr

def Children.toList : Children → List (Str × TrieNode)
  | .nil => []
  | .cons k c rest => (k, c) :: rest.toList

def isLeaf (t : TrieNode) : Bool :=
  match t.children with
  | .nil => true
  | .cons _ _ _ => false

def endsWithWS (s : Str) : Bool :=
  match s.getLast? with
  | some c => c.isWhitespace
  | none => false

/-- Modelled from the spec: all tokens except the word being typed; the
whole token list when the input ends in whitespace (spec section 4.3
step 2). -/
def completeTokensOf (input : Str) : List Str :=
  if endsWithWS input then tokenize input else (tokenize input).dropLast

/-- Modelled from the spec: the word currently being typed; empty when
the input ends in whitespace (spec section 4.3 step 2). -/
def lastTokenOf (input : Str) : Str :=
  if endsWithWS input then [] else (tokenize input).getLastD []

/-- Walk from a node through exact-value edges. -/
def walk (t : TrieNode) : List Str → Option TrieNode
  | [] => some t
  | s :: ss =>
      match findChild s t.children with
      | some c => walk c ss
      | none => none

/-- First pass of candidate selection: exact case-sensitive prefix
matches (spec section 4.3 step 4a). -/
def exactMatches (cs : List (Str × TrieNode)) (p : Str) : List (Str × TrieNode) :=
  cs.filter (fun kc => strStartsWith kc.1 p)

/-- Fuzzy fallback pass of candidate selection (spec section 4.3 step
4b), using fuzzyMatch from src/utils/Common.ts. -/
def fuzzyCandidates (cs : List (Str × TrieNode)) (p : Str) : List (Str × TrieNode) :=
  cs.filter (fun kc => fuzzyMatch p kc.1)

/-- Modelled from the spec: two-pass candidate selection at the fork
node (spec section 4.3 step 4). -/
def candidatesAt (cs : List (Str × TrieNode)) (p : Str) : List (Str × TrieNode) :=
  let ex := exactMatches cs p
  if ex.isEmpty then fuzzyCandidates cs p else ex

/-- Insert one candidate into a list sorted by descending frequency,
before the first entry of frequency at most its own (stable for the
element being inserted, which originates earlier in discovery order). -/
def insertDesc (x : Str × TrieNode) : List (Str × TrieNode) → List (Str × TrieNode)
  | [] => [x]
  | y :: ys =>
      if y.2.frequency ≤ x.2.frequency then x :: y :: ys else y :: insertDesc x ys

/-- Modelled from the spec: stable sort by descending edge frequency of
the matched child (spec section 4.3 step 7). -/
def sortDesc : List (Str × TrieNode) → List (Str × TrieNode)
  | [] => []
  | x :: xs => insertDesc x (sortDesc xs)

/-- Word-level suggestion for one matched child (spec section 4.3 step
5): the full token, with a trailing-space flag when the child has
children of its own. -/
def wordSuggestion (kc : Str × TrieNode) : Suggestion :=
  ⟨kc.1, !isLeaf kc.2⟩

def joinTokens : List Str → Str
  | [] => []
  | [t] => t
  | t :: ts => t ++ ' ' :: joinTokens ts

mutual
/-- Modelled from the spec: the tokens along the unbroken single-child
chain from a node down to a leaf, or `none` if some node on the way has
two or more children (spec section 4.3 step 6). -/
def chainToLeaf : TrieNode → Option (List Str)
  | .node _ cs => chainAux cs
def chainAux : Children → Option (List Str)
  | .nil => some []
  | .cons k c .nil => (chainToLeaf c).map (fun rest => k :: rest)
  | .cons _ _ (.cons _ _ _) => none
end

/-- Modelled from the spec: the deep-chain rule (spec section 4.3 step
6).  When the candidate set has exactly one member that is not itself a
leaf and the chain below it is unbroken, emit one extra suggestion
joining the member token with the chain tokens, with `space` false. -/
def deepChainSuggestions (cands : List (Str × TrieNode)) : List Suggestion :=
  match cands with
  | [kc] =>
      if isLeaf kc.2 then []
      else
        match chainToLeaf kc.2 with
        | some chain => [⟨joinTokens (kc.1 :: chain), false⟩]
        | none => []
  | _ => []

/-- Modelled from the spec: `getContinuationsFor` (spec section 4.3).
Tokenize; empty token list yields no suggestions; walk the complete
tokens by exact edges (failure yields no suggestions); select candidates
at the fork in two passes; sort by descending frequency with discovery
order as tiebreak; append the deep-chain suggestion when it exists. -/
def getContinuationsFor (root : TrieNode) (input : Str) : List Suggestion :=
  match tokenize input with
  | [] => []
  | _ :: _ =>
      match walk root (completeTokensOf input) with
      | none => []
      | some fork =>
          let sorted := sortDesc (candidatesAt fork.children.toList (lastTokenOf input))
          sorted.map wordSuggestion ++ deepChainSuggestions sorted

/-- Build a trie from a history and query it, as the unit tests do. -/
def suggest (history : List Str) (input : Str) : List Suggestion :=
  getContinuationsFor (replay history emptyTrie) input

/-- The stateful facade: the trie object owned by a session. -/
structure HistoryTrie where
  root : TrieNode

/-- Modelled from the spec: `add` mutates the trie in place; in this
state-passing embedding it returns the successor state. -/
def HistoryTrie.add (h : HistoryTrie) (line : Str) : HistoryTrie :=
  ⟨addLine h.root line⟩

/-- The suggestions computed from the state held by a HistoryTrie. -/
def queryRoot (h : HistoryTrie) (input : Str) : List Suggestion :=
  getContinuationsFor h.root input

/-- Modelled from the spec: `getContinuationsFor` reads the trie and
never mutates it; in this state-passing embedding it returns the (same)
state next to the computed suggestions. -/
def HistoryTrie.getContinuationsFor (h : HistoryTrie) (input : Str) :
    HistoryTrie × List Suggestion :=
  (h, queryRoot h input)

/-! ## Observation helpers used by the claims -/

mutual
/-- Same trie with every frequency doubled. -/
def doubleFreq : TrieNode → TrieNode
  | .node f cs => .node (2 * f) (doubleC cs)
def doubleC : Children → Children
  | .nil => .nil
  | .cons k c rest => .cons k (doubleFreq c) (doubleC rest)
end

/-- Does every token of the path have a matching edge? -/
def containsC : List Str → Children → Bool
  | [], _ => true
  | t :: ts, cs =>
      match findChild t cs with
      | some c => containsC ts c.children
      | none => false

/-- The frequency of the edge reached through a path of tokens, 0 when
the path leaves the trie (and 0 by convention on the empty path, which
names no edge). -/
def freqC : List Str → Children → Nat
  | [], _ => 0
  | [t], cs =>
      match findChild t cs with
      | some c => c.frequency
      | none => 0
  | t :: ts, cs =>
      match findChild t cs with
      | some c => freqC ts c.children
      | none => 0

/-- Edge frequency along a token path from the root. -/
def edgeFrequency (t : TrieNode) (p : List Str) : Nat := freqC p t.children

/-- Each element of the list repeated twice in place. -/
def dupEach : List (List Str) → List (List Str)
  | [] => []
  | x :: xs => x :: x :: dupEach xs

/-- Children-level replay of a list of already-tokenized lines. -/
def replayC (tss : List (List Str)) (cs : Children) : Children :=
  tss.foldl (fun cs ts => insertC ts cs) cs


/-! ## Character-level lemmas -/

theorem toLower_eq (c : Char) :
    charToLower c = if c.toNat ≥ 65 ∧ c.toNat ≤ 90 then Char.ofNat (c.toNat + 32) else c := rfl

theorem charToNat_ofNat {n : Nat} (h : n < 55296) : (Char.ofNat n).toNat = n := by
  have hv : n.isValidChar := Or.inl h
  rw [Char.ofNat, dif_pos hv]
  simp [Char.ofNatAux, Char.toNat, UInt32.toNat]

theorem char_eq_iff_toNat {c d : Char} : c = d ↔ c.toNat = d.toNat := by
  constructor
  · intro h; rw [h]
  · intro h; exact Char.eq_of_val_eq (UInt32.ext h)

theorem charToLower_idem (c : Char) : charToLower (charToLower c) = charToLower c := by
  rw [toLower_eq c, toLower_eq]
  split_ifs with h1 h2
  · rw [charToNat_ofNat (by omega)] at h2
    omega
  · rfl
  · rfl

theorem isSep_iff (c : Char) :
    isSep c = true ↔ c.toNat = 45 ∨ c.toNat = 95 ∨ c.toNat = 58 ∨ c.toNat = 47 := by
  have h1 : ('-').toNat = 45 := by decide
  have h2 : ('_').toNat = 95 := by decide
  have h3 : (':').toNat = 58 := by decide
  have h4 : ('/').toNat = 47 := by decide
  simp only [isSep, Bool.or_eq_true, decide_eq_true_eq, char_eq_iff_toNat, h1, h2, h3, h4]
  tauto

theorem isSep_toLower (c : Char) : isSep (charToLower c) = isSep c := by
  rw [toLower_eq]
  split_ifs with h
  · have h32 : (Char.ofNat (c.toNat + 32)).toNat = c.toNat + 32 :=
      charToNat_ofNat (by omega)
    have hl : isSep (Char.ofNat (c.toNat + 32)) = false := by
      rw [← Bool.not_eq_true, isSep_iff, h32]
      omega
    have hr : isSep c = false := by
      rw [← Bool.not_eq_true, isSep_iff]
      omega
    rw [hl, hr]
  · rfl

/-! ## String-level lemmas -/

theorem strToLower_idem (s : Str) : strToLower (strToLower s) = strToLower s := by
  induction s with
  | nil => rfl
  | cons c cs ih =>
      simp only [strToLower, List.map_cons] at ih ⊢
      rw [charToLower_idem]
      exact congrArg _ ih

theorem strToLower_eq_nil (s : Str) : strToLower s = [] ↔ s = [] := by
  simp [strToLower]

theorem startsWith_nil (s : Str) : strStartsWith s [] = true := by
  simp [strStartsWith, List.isPrefixOf_iff_prefix]

theorem splitOnSeps_toLower (s : Str) :
    splitOnSeps (strToLower s) = (splitOnSeps s).map strToLower := by
  induction s with
  | nil => rfl
  | cons c cs ih =>
      show splitOnSeps (charToLower c :: strToLower cs) = _
      by_cases h : isSep c = true
      · rw [splitOnSeps, if_pos (by rw [isSep_toLower]; exact h), ih,
          splitOnSeps, if_pos h]
        rfl
      · rw [splitOnSeps, if_neg (by rw [isSep_toLower]; exact h), ih,
          splitOnSeps, if_neg h]
        rcases hs : splitOnSeps cs with _ | ⟨t, ts⟩
        · rfl
        · rfl

/-! ## Lemmas about fuzzyMatch -/

theorem fuzzy_iff (input candidate : Str) :
    fuzzyMatch input candidate = true ↔
      strStartsWith (strToLower candidate) (strToLower input) = true ∨
      ∃ t ∈ splitOnSeps candidate, strStartsWith (strToLower t) (strToLower input) = true := by
  simp only [fuzzyMatch]
  cases hSW : strStartsWith (strToLower candidate) (strToLower input) with
  | true => simp [hSW]
  | false =>
    simp only [Bool.false_eq_true, if_false, false_or]
    rcases hfind : (splitOnSeps candidate).find?
        (fun token => strStartsWith (strToLower token) (strToLower input)) with _ | t0
    · simp only []
      simp only [Bool.false_eq_true, false_iff]
      rw [List.find?_eq_none] at hfind
      rintro ⟨t, ht, hts⟩
      exact absurd hts (by simpa using hfind t ht)
    · simp only []
      simp only [Bool.not_eq_true', decide_eq_false_iff_not, ne_eq, Bool.not_eq_eq_eq_not,
        Bool.not_false, decide_eq_true_eq]
      constructor
      · intro _
        exact ⟨t0, List.mem_of_find?_eq_some hfind, by
          have := List.find?_some hfind; simpa using this⟩
      · rintro ⟨t, ht, hts⟩
        intro ht0
        subst ht0
        have hp := List.find?_some hfind
        simp only [decide_eq_true_eq] at hp
        have hin : strToLower input = [] := by
          unfold strStartsWith at hp
          rw [List.isPrefixOf_iff_prefix] at hp
          simpa [strToLower] using List.prefix_nil.mp hp
        rw [hin, startsWith_nil] at hSW
        exact Bool.true_eq_false.mp hSW

theorem fuzzy_nil_input (candidate : Str) : fuzzyMatch [] candidate = true := by
  simp [fuzzyMatch, strToLower, startsWith_nil]

theorem fuzzyMatch_toLower (input candidate : Str) :
    fuzzyMatch input candidate = fuzzyMatch (strToLower input) (strToLower candidate) := by
  simp only [fuzzyMatch, strToLower_idem, splitOnSeps_toLower]
  rw [List.find?_map]
  have hpred : ((fun token => strStartsWith (strToLower token) (strToLower input)) ∘ strToLower)
      = (fun token => strStartsWith (strToLower token) (strToLower input)) := by
    funext t
    simp [Function.comp, strToLower_idem]
  rw [hpred]
  rcases hf : (splitOnSeps candidate).find?
      (fun token => strStartsWith (strToLower token) (strToLower input)) with _ | t
  · rfl
  · simp [strToLower_eq_nil]

/-! ## Children-level algebra of insertion -/

theorem findChild_upsert_self (t : Str) (f : TrieNode → TrieNode) :
    ∀ cs, findChild t (upsertWith t f cs) =
      some (f ((findChild t cs).getD (.node 0 .nil)))
  | .nil => by simp [upsertWith, findChild]
  | .cons k c rest => by
      by_cases h : k = t
      · subst h; simp [upsertWith, findChild]
      · simp [upsertWith, findChild, h, findChild_upsert_self t f rest]

theorem findChild_upsert_ne (a t : Str) (h : a ≠ t) (f : TrieNode → TrieNode) :
    ∀ cs, findChild a (upsertWith t f cs) = findChild a cs
  | .nil => by
      simp only [upsertWith, findChild]
      rw [if_neg (fun hh => h hh.symm)]
  | .cons k c rest => by
      simp only [upsertWith]
      by_cases hk : k = t
      · subst hk
        rw [if_pos rfl]
        simp only [findChild]
        rw [if_neg (fun hh => h hh.symm), if_neg (fun hh => h hh.symm)]
      · rw [if_neg hk]
        simp only [findChild]
        by_cases hka : k = a
        · rw [if_pos hka, if_pos hka]
        · rw [if_neg hka, if_neg hka, findChild_upsert_ne a t h f rest]

theorem upsert_upsert (t : Str) (f g : TrieNode → TrieNode) :
    ∀ cs, upsertWith t f (upsertWith t g cs) = upsertWith t (fun c => f (g c)) cs
  | .nil => by simp [upsertWith]
  | .cons k c rest => by
      by_cases hk : k = t
      · simp [upsertWith, hk]
      · simp [upsertWith, hk, upsert_upsert t f g rest]

theorem upsert_congr_found (t : Str) (f g : TrieNode → TrieNode) (c0 : TrieNode) :
    ∀ cs, findChild t cs = some c0 → f c0 = g c0 → upsertWith t f cs = upsertWith t g cs
  | .nil, h, _ => by simp [findChild] at h
  | .cons k c rest, h, hfg => by
      by_cases hk : k = t
      · subst hk
        simp only [findChild, eq_self_iff_true, if_true, Option.some_inj] at h
        subst h
        simp [upsertWith, hfg]
      · simp only [findChild, if_neg hk] at h
        simp [upsertWith, hk, upsert_congr_found t f g c0 rest h hfg]

theorem upsert_comm_ne (a b : Str) (h : a ≠ b) (f g : TrieNode → TrieNode) :
    ∀ cs, (findChild a cs).isSome = true →
      upsertWith a f (upsertWith b g cs) = upsertWith b g (upsertWith a f cs)
  | .nil, hp => by simp [findChild] at hp
  | .cons k c rest, hp => by
      by_cases hka : k = a
      · subst hka
        have hkb : ¬ k = b := h
        simp [upsertWith, hkb]
      · by_cases hkb : k = b
        · subst hkb
          simp [upsertWith, hka]
        · simp only [findChild, if_neg hka] at hp
          simp only [upsertWith, if_neg hka, if_neg hkb]
          rw [upsert_comm_ne a b h f g rest hp]

/-! ## Path containment and commutation of insertions -/

theorem containsC_insert_self : ∀ (l : List Str) (cs : Children),
    containsC l (insertC l cs) = true
  | [], _ => rfl
  | a :: l', cs => by
      simp only [insertC, containsC]
      rw [findChild_upsert_self]
      simp only [TrieNode.children]
      exact containsC_insert_self l' _

theorem containsC_insert_mono : ∀ (l x : List Str) (cs : Children),
    containsC l cs = true → containsC l (insertC x cs) = true
  | [], _, _, _ => rfl
  | _ :: _, [], _, h => h
  | a :: l', b :: x', cs, h => by
      simp only [containsC] at h
      rcases hf : findChild a cs with _ | c
      · rw [hf] at h
        exact absurd h (by simp)
      · rw [hf] at h
        simp only [insertC, containsC]
        by_cases hab : a = b
        · subst hab
          rw [findChild_upsert_self]
          simp only [hf, Option.getD_some, TrieNode.children]
          exact containsC_insert_mono l' x' c.children h
        · rw [findChild_upsert_ne a b hab _ cs, hf]
          exact h

theorem insertC_comm : ∀ (l x : List Str) (cs : Children),
    containsC l cs = true → insertC l (insertC x cs) = insertC x (insertC l cs)
  | [], _, _, _ => rfl
  | _ :: _, [], _, _ => rfl
  | a :: l', b :: x', cs, h => by
      simp only [containsC] at h
      rcases hf : findChild a cs with _ | c
      · rw [hf] at h
        exact absurd h (by simp)
      · rw [hf] at h
        simp only [insertC]
        by_cases hab : a = b
        · subst hab
          obtain ⟨cf, cch⟩ := c
          have h' : containsC l' cch = true := h
          rw [upsert_upsert, upsert_upsert]
          refine upsert_congr_found a _ _ _ cs hf ?_
          simp only [TrieNode.frequency, TrieNode.children]
          rw [insertC_comm l' x' cch h']
        · exact upsert_comm_ne a b hab _ _ cs (by rw [hf]; rfl)

theorem insertC_replayC_comm : ∀ (xs : List (List Str)) (l : List Str) (cs : Children),
    containsC l cs = true → insertC l (replayC xs cs) = replayC xs (insertC l cs)
  | [], _, _, _ => rfl
  | x :: xs', l, cs, h => by
      show insertC l (replayC xs' (insertC x cs)) = replayC xs' (insertC x (insertC l cs))
      rw [insertC_replayC_comm xs' l (insertC x cs) (containsC_insert_mono l x cs h),
        insertC_comm l x cs h]

theorem replayC_twice : ∀ (tss : List (List Str)) (cs : Children),
    replayC tss (replayC tss cs) = replayC (dupEach tss) cs
  | [], _ => rfl
  | t :: tss', cs => by
      show replayC tss' (insertC t (replayC tss' (insertC t cs))) =
        replayC (dupEach tss') (insertC t (insertC t cs))
      rw [insertC_replayC_comm tss' t (insertC t cs) (containsC_insert_self t cs)]
      exact replayC_twice tss' (insertC t (insertC t cs))

/-! ## Doubling of frequencies -/

theorem upsert_double_aux (s : Str) (g : TrieNode → TrieNode)
    (P : ∀ c, g (g (doubleFreq c)) = doubleFreq (g c)) :
    ∀ cs, upsertWith s g (upsertWith s g (doubleC cs)) = doubleC (upsertWith s g cs)
  | .nil => by
      have hd := P (.node 0 .nil)
      simp only [doubleFreq, doubleC, Nat.mul_zero] at hd
      simp only [doubleC, upsertWith, eq_self_iff_true, if_true]
      rw [hd]
  | .cons k c rest => by
      by_cases hk : k = s
      · subst hk
        simp only [doubleC, upsertWith, eq_self_iff_true, if_true]
        rw [P c]
      · simp only [doubleC, upsertWith, if_neg hk]
        rw [upsert_double_aux s g P rest]

theorem insertC_double : ∀ (l : List Str) (cs : Children),
    insertC l (insertC l (doubleC cs)) = doubleC (insertC l cs)
  | [], _ => rfl
  | s :: ts, cs => by
      simp only [insertC]
      refine upsert_double_aux s _ (fun c => ?_) cs
      obtain ⟨f, ch⟩ := c
      simp only [doubleFreq, TrieNode.frequency, TrieNode.children]
      rw [insertC_double ts ch]
      congr 1

theorem replayC_dup_double : ∀ (tss : List (List Str)) (cs : Children),
    replayC (dupEach tss) (doubleC cs) = doubleC (replayC tss cs)
  | [], _ => rfl
  | t :: tss', cs => by
      show replayC (dupEach tss') (insertC t (insertC t (doubleC cs))) =
        doubleC (replayC tss' (insertC t cs))
      rw [insertC_double t cs]
      exact replayC_dup_double tss' (insertC t cs)

theorem replay_eq_replayC : ∀ (lines : List Str) (f : Nat) (cs : Children),
    replay lines (.node f cs) = .node f (replayC (lines.map tokenize) cs)
  | [], _, _ => rfl
  | l :: ls, f, cs => by
      show replay ls (addLine (.node f cs) l) = _
      rw [show addLine (.node f cs) l = .node f (insertC (tokenize l) cs) from rfl]
      exact replay_eq_replayC ls f (insertC (tokenize l) cs)

theorem replayC_append (xs ys : List (List Str)) (cs : Children) :
    replayC (xs ++ ys) cs = replayC ys (replayC xs cs) := by
  simp [replayC, List.foldl_append]

theorem replay_twice_eq_double (lines : List Str) :
    replay (lines ++ lines) emptyTrie = doubleFreq (replay lines emptyTrie) := by
  show replay (lines ++ lines) (.node 0 .nil) = doubleFreq (replay lines (.node 0 .nil))
  rw [replay_eq_replayC, replay_eq_replayC, List.map_append, replayC_append, replayC_twice]
  have h := replayC_dup_double (lines.map tokenize) .nil
  rw [show doubleC .nil = .nil from rfl] at h
  rw [h]
  rfl

/-! ## The query reads only shape and relative frequencies -/

theorem findChild_doubleC (t : Str) :
    ∀ cs, findChild t (doubleC cs) = (findChild t cs).map doubleFreq
  | .nil => rfl
  | .cons k c rest => by
      by_cases hk : k = t
      · simp [doubleC, findChild, hk]
      · simp [doubleC, findChild, hk, findChild_doubleC t rest]

theorem frequency_double (c : TrieNode) : (doubleFreq c).frequency = 2 * c.frequency := by
  obtain ⟨f, ch⟩ := c
  rfl

theorem children_double (c : TrieNode) : (doubleFreq c).children = doubleC c.children := by
  obtain ⟨f, ch⟩ := c
  rfl

theorem isLeaf_double (c : TrieNode) : isLeaf (doubleFreq c) = isLeaf c := by
  obtain ⟨f, ch⟩ := c
  cases ch <;> rfl

theorem freqC_doubleC : ∀ (p : List Str) (cs : Children),
    freqC p (doubleC cs) = 2 * freqC p cs
  | [], _ => rfl
  | [t], cs => by
      simp only [freqC, findChild_doubleC]
      rcases findChild t cs with _ | c
      · rfl
      · simp [frequency_double]
  | t :: t' :: p, cs => by
      simp only [freqC, findChild_doubleC]
      rcases findChild t cs with _ | c
      · rfl
      · show freqC (t' :: p) (doubleFreq c).children = 2 * freqC (t' :: p) c.children
        rw [children_double]
        exact freqC_doubleC (t' :: p) c.children

theorem edgeFrequency_double (t : TrieNode) (p : List Str) :
    edgeFrequency (doubleFreq t) p = 2 * edgeFrequency t p := by
  unfold edgeFrequency
  rw [children_double, freqC_doubleC]

theorem walk_double : ∀ (p : List Str) (t : TrieNode),
    walk (doubleFreq t) p = (walk t p).map doubleFreq
  | [], _ => rfl
  | s :: ss, t => by
      simp only [walk, children_double, findChild_doubleC]
      rcases findChild s t.children with _ | c
      · rfl
      · show walk (doubleFreq c) ss = (walk c ss).map doubleFreq
        exact walk_double ss c

theorem toList_doubleC :
    ∀ cs : Children, (doubleC cs).toList = cs.toList.map (fun kc => (kc.1, doubleFreq kc.2))
  | .nil => rfl
  | .cons k c rest => by
      simp [doubleC, Children.toList, toList_doubleC rest]

mutual
theorem chainToLeaf_double : ∀ t, chainToLeaf (doubleFreq t) = chainToLeaf t
  | .node f cs => by simp [doubleFreq, chainToLeaf, chainAux_double cs]
theorem chainAux_double : ∀ cs, chainAux (doubleC cs) = chainAux cs
  | .nil => rfl
  | .cons k c rest => by
      cases rest <;> simp [doubleC, chainAux, chainToLeaf_double c]
end

theorem exactMatches_map_double (cs : List (Str × TrieNode)) (p : Str) :
    exactMatches (cs.map (fun kc => (kc.1, doubleFreq kc.2))) p =
      (exactMatches cs p).map (fun kc => (kc.1, doubleFreq kc.2)) := by
  simp only [exactMatches, List.filter_map]
  rfl

theorem fuzzyCandidates_map_double (cs : List (Str × TrieNode)) (p : Str) :
    fuzzyCandidates (cs.map (fun kc => (kc.1, doubleFreq kc.2))) p =
      (fuzzyCandidates cs p).map (fun kc => (kc.1, doubleFreq kc.2)) := by
  simp only [fuzzyCandidates, List.filter_map]
  rfl

theorem candidatesAt_map_double (cs : List (Str × TrieNode)) (p : Str) :
    candidatesAt (cs.map (fun kc => (kc.1, doubleFreq kc.2))) p =
      (candidatesAt cs p).map (fun kc => (kc.1, doubleFreq kc.2)) := by
  simp only [candidatesAt, exactMatches_map_double, fuzzyCandidates_map_double]
  rcases h : exactMatches cs p with _ | ⟨x, xs⟩
  · simp
  · simp

theorem insertDesc_map_double (x : Str × TrieNode) :
    ∀ l, insertDesc ((fun kc => (kc.1, doubleFreq kc.2)) x)
        (l.map (fun kc => (kc.1, doubleFreq kc.2))) =
      (insertDesc x l).map (fun kc => (kc.1, doubleFreq kc.2))
  | [] => rfl
  | y :: ys => by
      simp only [List.map_cons, insertDesc, frequency_double]
      by_cases h : y.2.frequency ≤ x.2.frequency
      · rw [if_pos (by omega), if_pos h]
        simp
      · rw [if_neg (by omega), if_neg h]
        simp only [List.map_cons, List.cons.injEq, true_and]
        exact insertDesc_map_double x ys

theorem sortDesc_map_double :
    ∀ l, sortDesc (l.map (fun kc => (kc.1, doubleFreq kc.2))) =
      (sortDesc l).map (fun kc => (kc.1, doubleFreq kc.2))
  | [] => rfl
  | x :: xs => by
      simp only [List.map_cons, sortDesc]
      rw [sortDesc_map_double xs]
      exact insertDesc_map_double x (sortDesc xs)

theorem wordSuggestion_double (kc : Str × TrieNode) :
    wordSuggestion ((fun kc => (kc.1, doubleFreq kc.2)) kc) = wordSuggestion kc := by
  simp [wordSuggestion, isLeaf_double]

theorem deepChain_map_double :
    ∀ cands, deepChainSuggestions (cands.map (fun kc => (kc.1, doubleFreq kc.2))) =
      deepChainSuggestions cands
  | [] => rfl
  | [kc] => by
      simp only [List.map_cons, List.map_nil, deepChainSuggestions, isLeaf_double,
        chainToLeaf_double]
  | kc :: kd :: rest => rfl

theorem getContinuationsFor_double (root : TrieNode) (input : Str) :
    getContinuationsFor (doubleFreq root) input = getContinuationsFor root input := by
  simp only [getContinuationsFor]
  rcases tokenize input with _ | ⟨t, ts⟩
  · rfl
  · rw [walk_double]
    rcases walk root (completeTokensOf input) with _ | fork
    · rfl
    · show List.map wordSuggestion
          (sortDesc (candidatesAt (doubleFreq fork).children.toList (lastTokenOf input))) ++
          deepChainSuggestions
            (sortDesc (candidatesAt (doubleFreq fork).children.toList (lastTokenOf input))) = _
      rw [children_double, toList_doubleC, candidatesAt_map_double, sortDesc_map_double,
        deepChain_map_double, List.map_map]
      congr 1
      apply List.map_congr_left
      intro kc _
      exact wordSuggestion_double kc

/-! ## Sortedness and stability of the ranking -/

theorem mem_insertDesc (x a : Str × TrieNode) :
    ∀ l, a ∈ insertDesc x l ↔ a = x ∨ a ∈ l
  | [] => by simp [insertDesc]
  | y :: ys => by
      simp only [insertDesc]
      by_cases h : y.2.frequency ≤ x.2.frequency
      · rw [if_pos h]
        simp only [List.mem_cons]
      · rw [if_neg h]
        simp only [List.mem_cons, mem_insertDesc x a ys]
        tauto

theorem sorted_insertDesc (x : Str × TrieNode) :
    ∀ l, l.Pairwise (fun a b => b.2.frequency ≤ a.2.frequency) →
      (insertDesc x l).Pairwise (fun a b => b.2.frequency ≤ a.2.frequency)
  | [], _ => by simp [insertDesc]
  | y :: ys, hp => by
      rcases List.pairwise_cons.mp hp with ⟨hy, hys⟩
      simp only [insertDesc]
      by_cases h : y.2.frequency ≤ x.2.frequency
      · rw [if_pos h]
        refine List.pairwise_cons.mpr ⟨?_, hp⟩
        intro b hb
        rcases List.mem_cons.mp hb with rfl | hb
        · exact h
        · exact le_trans (hy b hb) h
      · rw [if_neg h]
        refine List.pairwise_cons.mpr ⟨?_, sorted_insertDesc x ys hys⟩
        intro b hb
        rcases (mem_insertDesc x b ys).mp hb with rfl | hb
        · omega
        · exact hy b hb

theorem sortDesc_sorted : ∀ l : List (Str × TrieNode),
    (sortDesc l).Pairwise (fun a b => b.2.frequency ≤ a.2.frequency)
  | [] => List.Pairwise.nil
  | x :: xs => sorted_insertDesc x (sortDesc xs) (sortDesc_sorted xs)

theorem filter_insertDesc (n : Nat) (x : Str × TrieNode) :
    ∀ l, (insertDesc x l).filter (fun kc => kc.2.frequency == n) =
      ((x :: l).filter (fun kc => kc.2.frequency == n))
  | [] => rfl
  | y :: ys => by
      simp only [insertDesc]
      by_cases h : y.2.frequency ≤ x.2.frequency
      · rw [if_pos h]
      · rw [if_neg h]
        simp only [List.filter_cons]
        rw [filter_insertDesc n x ys]
        simp only [List.filter_cons]
        by_cases hy : (y.2.frequency == n) = true
        · have hy0 : y.2.frequency = n := by simpa using hy
          have hx : (x.2.frequency == n) = false := by
            have hne : ¬ x.2.frequency = n := by omega
            simpa using hne
          simp [hy, hx]
        · have hy' : (y.2.frequency == n) = false := Bool.not_eq_true _ ▸ eq_false_of_ne_true hy
          simp [hy']

theorem sortDesc_filter_freq (n : Nat) : ∀ l : List (Str × TrieNode),
    (sortDesc l).filter (fun kc => kc.2.frequency == n) =
      l.filter (fun kc => kc.2.frequency == n)
  | [] => rfl
  | x :: xs => by
      simp only [sortDesc]
      rw [filter_insertDesc n x (sortDesc xs)]
      simp only [List.filter_cons]
      rw [sortDesc_filter_freq n xs]

/-! ## Tokenizer lemmas -/

theorem tokenizeGo_ws : ∀ (s : List Char) (acc : List Str),
    (∀ c ∈ s, c.isWhitespace = true) → tokenizeGo s none [] acc = acc.reverse
  | [], acc, _ => by simp [tokenizeGo]
  | c :: rest, acc, h => by
      have hc : c.isWhitespace = true := h c (List.mem_cons_self c rest)
      simp only [tokenizeGo, hc, if_true, eq_self_iff_true]
      exact tokenizeGo_ws rest acc (fun d hd => h d (List.mem_cons_of_mem c hd))

theorem tokenize_ws (s : Str) (h : ∀ c ∈ s, c.isWhitespace = true) : tokenize s = [] :=
  tokenizeGo_ws s [] h

theorem tokenizeGo_quote : ∀ (inner rest : List Char) (q : Char) (cur : List Char)
    (acc : List Str), (∀ c ∈ inner, c ≠ q) →
    tokenizeGo (inner ++ q :: rest) (some q) cur acc =
      tokenizeGo rest none (q :: inner.reverse ++ cur) acc
  | [], rest, q, cur, acc, _ => by simp [tokenizeGo]
  | c :: inner', rest, q, cur, acc, h => by
      have hc : ¬ c = q := h c (List.mem_cons_self c inner')
      simp only [List.cons_append, tokenizeGo, if_neg hc, List.append_eq]
      rw [tokenizeGo_quote inner' rest q (c :: cur) acc
        (fun d hd => h d (List.mem_cons_of_mem c hd))]
      have harr : (q :: inner'.reverse) ++ (c :: cur) = q :: ((c :: inner').reverse ++ cur) := by
        simp
      rw [harr]

/-! ## Degenerate queries -/

theorem getCont_ws (root : TrieNode) (input : Str)
    (h : ∀ c ∈ input, c.isWhitespace = true) : getContinuationsFor root input = [] := by
  simp only [getContinuationsFor]
  rw [tokenize_ws input h]

theorem getCont_walk_none (root : TrieNode) (input : Str)
    (hw : walk root (completeTokensOf input) = none) :
    getContinuationsFor root input = [] := by
  simp only [getContinuationsFor]
  rcases h : tokenize input with _ | ⟨t, ts⟩
  · rfl
  · rw [hw]

/-! ## Candidate selection and deep chain characterizations -/

theorem candidatesAt_exact (cs : List (Str × TrieNode)) (p : Str)
    (h : exactMatches cs p ≠ []) : candidatesAt cs p = exactMatches cs p := by
  simp only [candidatesAt]
  rw [if_neg (by simpa [List.isEmpty_iff] using h)]

theorem candidatesAt_fuzzy (cs : List (Str × TrieNode)) (p : Str)
    (h : exactMatches cs p = []) : candidatesAt cs p = fuzzyCandidates cs p := by
  simp only [candidatesAt]
  rw [if_pos (by simpa [List.isEmpty_iff] using h)]

theorem deepChain_ne_nil_iff : ∀ cands : List (Str × TrieNode),
    deepChainSuggestions cands ≠ [] ↔
      ∃ k c, cands = [(k, c)] ∧ isLeaf c = false ∧ (chainToLeaf c).isSome = true
  | [] => by simp [deepChainSuggestions]
  | [kc] => by
      simp only [deepChainSuggestions]
      by_cases hl : isLeaf kc.2 = true
      · rw [if_pos hl]
        simp only [ne_eq, not_true_eq_false, false_iff]
        rintro ⟨k, c, hkc, hlf, -⟩
        rw [List.cons.injEq] at hkc
        rcases hkc with ⟨rfl, -⟩
        dsimp only at hl
        rw [hlf] at hl
        cases hl
      · have hl' : isLeaf kc.2 = false := eq_false_of_ne_true hl
        rw [if_neg hl]
        rcases hc : chainToLeaf kc.2 with _ | chain
        · simp only [ne_eq, not_true_eq_false, false_iff]
          rintro ⟨k, c, hkc, -, hsome⟩
          rw [List.cons.injEq] at hkc
          rcases hkc with ⟨rfl, -⟩
          dsimp only at hc
          rw [hc] at hsome
          simp at hsome
        · simp only [ne_eq, List.cons_ne_nil, not_false_eq_true, true_iff]
          exact ⟨kc.1, kc.2, by simp, hl', by rw [hc]; rfl⟩
  | kc :: kd :: rest => by
      simp only [deepChainSuggestions]
      simp only [ne_eq, not_true_eq_false, false_iff]
      rintro ⟨k, c, hkc, -, -⟩
      simp at hkc

theorem deepChain_value (k : Str) (c : TrieNode) (chain : List Str)
    (hl : isLeaf c = false) (hc : chainToLeaf c = some chain) :
    deepChainSuggestions [(k, c)] = [⟨joinTokens (k :: chain), false⟩] := by
  simp only [deepChainSuggestions]
  rw [if_neg (by rw [hl]; exact Bool.false_ne_true), hc]

/-! ## Model validation against test/utils/history_trie_spec.ts -/

/-- The model reproduces the test "finds next common prefixes". -/
theorem modelCheck_next_common_prefixes :
    suggest [str "git commit", str "git checkout"] (str "git ") =
      [⟨str "commit", false⟩, ⟨str "checkout", false⟩] := by decide

/-- The model reproduces the test "finds first word". -/
theorem modelCheck_first_word :
    suggest [str "git commit", str "git checkout"] (str "gi") = [⟨str "git", true⟩] := by
  decide

/-- The model reproduces the test "finds single continuation". -/
theorem modelCheck_single_continuation :
    suggest [str "git commit", str "git checkout"] (str "git co") =
      [⟨str "commit", false⟩] := by decide

/-- The model reproduces the test "considers a string literal a single
token" with both history entries of the test. -/
theorem modelCheck_string_literal :
    suggest [str "git commit -m " ++ singleQuote :: str "first message" ++ [singleQuote],
             str "git commit -m " ++ singleQuote :: str "second message" ++ [singleQuote]]
      (str "git commit -m ") =
      [⟨singleQuote :: str "first message" ++ [singleQuote], false⟩,
       ⟨singleQuote :: str "second message" ++ [singleQuote], false⟩] := by decide

/-- The model reproduces the test "gives no results for empty input". -/
theorem modelCheck_empty_input :
    suggest [str "git log"] (str "") = [] := by decide

/-! ## Claims -/

/-- C1: the deep-chain suggestion is emitted if and only if the
candidate set at the fork has exactly one member, that member is not
itself a leaf, and the chain below it down to a leaf is an unbroken
single-child chain; in that case exactly one extra suggestion is
appended whose value joins the member token and the chain tokens with
single spaces and whose space flag is false.  Concretely, after adding
"git commit" and "git checkout master --option", suggesting on
"git ch" yields checkout (with space) followed by the deep chain
"checkout master --option" (without space); after adding "git commit"
and "git checkout master", suggesting on "git c" yields exactly commit
and checkout with no multi-token entry. -/
theorem claimC1_deep_chain :
    (∀ cands : List (Str × TrieNode), deepChainSuggestions cands ≠ [] ↔
      ∃ k c, cands = [(k, c)] ∧ isLeaf c = false ∧ (chainToLeaf c).isSome = true) ∧
    (∀ (k : Str) (c : TrieNode) (chain : List Str), isLeaf c = false →
      chainToLeaf c = some chain →
      deepChainSuggestions [(k, c)] = [⟨joinTokens (k :: chain), false⟩]) ∧
    suggest [str "git commit", str "git checkout master --option"] (str "git ch") =
      [⟨str "checkout", true⟩, ⟨str "checkout master --option", false⟩] ∧
    suggest [str "git commit", str "git checkout master"] (str "git c") =
      [⟨str "commit", false⟩, ⟨str "checkout", true⟩] :=
  ⟨deepChain_ne_nil_iff, deepChain_value, by decide, by decide⟩

/-- Witness for C1: the deep-chain value rule evaluated at a concrete
one-child chain. -/
theorem claimC1_deep_chain_witness :
    deepChainSuggestions [(str "a", .node 1 (.cons (str "b") (.node 1 .nil) .nil))] =
      [⟨joinTokens [str "a", str "b"], false⟩] :=
  claimC1_deep_chain.2.1 (str "a") (.node 1 (.cons (str "b") (.node 1 .nil) .nil))
    [str "b"] (by decide) (by decide)

/-- C2: fuzzyMatch input candidate is true exactly when the whole
candidate starts with the input case-insensitively, or some sub-token
of the candidate split on the separators dash, underscore, colon and
slash starts with the input case-insensitively. -/
theorem claimC2_fuzzy_iff (input candidate : Str) :
    fuzzyMatch input candidate = true ↔
      strStartsWith (strToLower candidate) (strToLower input) = true ∨
      ∃ t ∈ splitOnSeps candidate, strStartsWith (strToLower t) (strToLower input) = true :=
  fuzzy_iff input candidate

/-- Witness for C2: the characterization applied to the cherry-pick
example of the test suite. -/
theorem claimC2_fuzzy_iff_witness :
    fuzzyMatch (str "pi") (str "cherry-pick") = true :=
  (claimC2_fuzzy_iff (str "pi") (str "cherry-pick")).mpr
    (Or.inr ⟨str "pick", by decide, by decide⟩)

/-- C3: candidate selection is two-pass: when the exact case-sensitive
prefix pass is nonempty it is the candidate set, and the fuzzy
predicate is consulted only when the exact pass is empty; concretely,
after adding "git cherry-pick", suggesting on "git pi" yields the
fuzzy sub-token match cherry-pick. -/
theorem claimC3_two_pass :
    (∀ (cs : List (Str × TrieNode)) (p : Str), exactMatches cs p ≠ [] →
      candidatesAt cs p = exactMatches cs p) ∧
    (∀ (cs : List (Str × TrieNode)) (p : Str), exactMatches cs p = [] →
      candidatesAt cs p = fuzzyCandidates cs p) ∧
    suggest [str "git cherry-pick"] (str "git pi") = [⟨str "cherry-pick", false⟩] :=
  ⟨candidatesAt_exact, candidatesAt_fuzzy, by decide⟩

/-- Witness for C3: both passes evaluated at concrete fork children. -/
theorem claimC3_two_pass_witness :
    candidatesAt [(str "commit", emptyTrie)] (str "co") =
      exactMatches [(str "commit", emptyTrie)] (str "co") ∧
    candidatesAt [(str "cherry-pick", emptyTrie)] (str "pi") =
      fuzzyCandidates [(str "cherry-pick", emptyTrie)] (str "pi") :=
  ⟨claimC3_two_pass.1 [(str "commit", emptyTrie)] (str "co") (by decide),
   claimC3_two_pass.2.1 [(str "cherry-pick", emptyTrie)] (str "pi") (by decide)⟩

/-- C4: the suggestion list is sorted by descending edge frequency of
the matched child with ties preserving discovery order (the sort is
stable: filtering any fixed frequency returns the entries in their
original order); concretely, after "git status", "git pull",
"git pull", suggesting on "git " yields pull before status, both
leaves. -/
theorem claimC4_frequency_order :
    (∀ l : List (Str × TrieNode),
      (sortDesc l).Pairwise (fun a b => b.2.frequency ≤ a.2.frequency)) ∧
    (∀ (l : List (Str × TrieNode)) (n : Nat),
      (sortDesc l).filter (fun kc => kc.2.frequency == n) =
        l.filter (fun kc => kc.2.frequency == n)) ∧
    suggest [str "git status", str "git pull", str "git pull"] (str "git ") =
      [⟨str "pull", false⟩, ⟨str "status", false⟩] :=
  ⟨sortDesc_sorted, fun l n => sortDesc_filter_freq n l, by decide⟩

/-- C5: a quoted substring is one token, quote characters included,
never split at internal whitespace: while the tokenizer is inside a
quote opened by q, it consumes every character up to the closing q
into the current token; concretely the line with the literal
encoding of first message in single quotes tokenizes to four tokens,
and suggesting on "git commit -m " returns that literal verbatim. -/
theorem claimC5_quoted_token :
    (∀ (inner rest : List Char) (q : Char) (cur : List Char) (acc : List Str),
      (∀ c ∈ inner, c ≠ q) →
      tokenizeGo (inner ++ q :: rest) (some q) cur acc =
        tokenizeGo rest none (q :: inner.reverse ++ cur) acc) ∧
    tokenize (str "git commit -m " ++ singleQuote :: str "first message" ++ [singleQuote]) =
      [str "git", str "commit", str "-m",
        singleQuote :: str "first message" ++ [singleQuote]] ∧
    (⟨singleQuote :: str "first message" ++ [singleQuote], false⟩ : Suggestion) ∈
      suggest [str "git commit -m " ++ singleQuote :: str "first message" ++ [singleQuote]]
        (str "git commit -m ") :=
  ⟨tokenizeGo_quote, by decide, by decide⟩

/-- Witness for C5: the in-quote consumption rule evaluated on a
literal containing whitespace. -/
theorem claimC5_quoted_token_witness :
    tokenizeGo (str "a b" ++ singleQuote :: ([] : List Char)) (some singleQuote) [] [] =
      tokenizeGo [] none (singleQuote :: (str "a b").reverse ++ []) [] :=
  claimC5_quoted_token.1 (str "a b") [] singleQuote [] [] (by decide)

/-- C6: degenerate queries resolve to the empty suggestion sequence
rather than an error (in this embedding both operations are total
functions): a whitespace-only or empty input yields no suggestions
regardless of the trie, and a walk that finds no matching edge for
some complete token yields no suggestions. -/
theorem claimC6_no_errors :
    (∀ (root : TrieNode) (input : Str), (∀ c ∈ input, c.isWhitespace = true) →
      getContinuationsFor root input = []) ∧
    (∀ (root : TrieNode) (input : Str), walk root (completeTokensOf input) = none →
      getContinuationsFor root input = []) :=
  ⟨getCont_ws, getCont_walk_none⟩

/-- Witness for C6: a whitespace-only input on a populated trie and an
unmatched complete token both yield the empty sequence. -/
theorem claimC6_no_errors_witness :
    getContinuationsFor (replay [str "git log"] emptyTrie) (str " ") = [] ∧
    getContinuationsFor (replay [str "git log"] emptyTrie) (str "svn up ") = [] :=
  ⟨claimC6_no_errors.1 (replay [str "git log"] emptyTrie) (str " ") (by decide),
   claimC6_no_errors.2 (replay [str "git log"] emptyTrie) (str "svn up ") (by decide)⟩

/-- C7: replaying the same add sequence twice from the empty trie
yields exactly the frequency-doubled trie: every edge frequency is
double its single-replay value, and the suggestions (hence their
ordering) returned at any input are identical for the single-replay
and double-replay tries. -/
theorem claimC7_idempotent_order (lines : List Str) :
    replay (lines ++ lines) emptyTrie = doubleFreq (replay lines emptyTrie) ∧
    (∀ p : List Str, edgeFrequency (replay (lines ++ lines) emptyTrie) p =
      2 * edgeFrequency (replay lines emptyTrie) p) ∧
    (∀ input : Str, getContinuationsFor (replay (lines ++ lines) emptyTrie) input =
      getContinuationsFor (replay lines emptyTrie) input) := by
  refine ⟨replay_twice_eq_double lines, fun p => ?_, fun input => ?_⟩
  · rw [replay_twice_eq_double lines, edgeFrequency_double]
  · rw [replay_twice_eq_double lines, getContinuationsFor_double]

/-- C8: in the state-passing embedding of the mutable HistoryTrie,
the query operation returns the state unchanged together with the
suggestions computed from it, while add replaces the state by the
inserted trie. -/
theorem claimC8_query_pure (h : HistoryTrie) (input line : Str) :
    (HistoryTrie.getContinuationsFor h input).1 = h ∧
    (HistoryTrie.getContinuationsFor h input).2 = getContinuationsFor h.root input ∧
    (HistoryTrie.add h line).root = addLine h.root line :=
  ⟨rfl, rfl, rfl⟩

/-- C9: with an empty input the fuzzy predicate accepts every
candidate, so with an empty partial token every fork child passes the
fuzzy filter. -/
theorem claimC9_empty_matches_all :
    (∀ candidate : Str, fuzzyMatch [] candidate = true) ∧
    (∀ cs : List (Str × TrieNode), fuzzyCandidates cs [] = cs) := by
  refine ⟨fuzzy_nil_input, fun cs => ?_⟩
  unfold fuzzyCandidates
  exact List.filter_eq_self.mpr fun kc _ => fuzzy_nil_input kc.1

/-- C10: fuzzyMatch is invariant under lowercasing both arguments. -/
theorem claimC10_case_invariant (input candidate : Str) :
    fuzzyMatch input candidate = fuzzyMatch (strToLower input) (strToLower candidate) :=
  fuzzyMatch_toLower input candidate
